import Mathlib

/-!
Verification development for the Pressunto collection content store
(`src/app/lib/projects.server.ts`).

The TypeScript source is shallowly embedded below.  JavaScript strings are
Lean `String`s, JavaScript's `string | number` attribute values become the
`Val` sum type, objects with insertion-ordered string keys become
association lists, and the asynchronous provider primitives become explicit
state passing (`RepoState`) or function parameters (`fetch`).  Fallible
operations return `Except`.
-/

namespace Pressunto

/-- A JavaScript attribute value: `string | number` (numbers restricted to
integers, which is what the `order` machinery produces and consumes). -/
inductive Val where
  | str : String → Val
  | num : Int → Val
deriving DecidableEq, Repr

/-- Equality of `Except` results is decidable componentwise (used to settle
concrete parser runs by `decide`). -/
def exceptDecEq {ε α : Type} [DecidableEq ε] [DecidableEq α] :
    DecidableEq (Except ε α) := fun a b =>
  match a, b with
  | .error e, .error f =>
    if h : e = f then .isTrue (by rw [h])
    else .isFalse (by intro hc; injection hc; contradiction)
  | .ok x, .ok y =>
    if h : x = y then .isTrue (by rw [h])
    else .isFalse (by intro hc; injection hc; contradiction)
  | .error _, .ok _ => .isFalse (by intro hc; injection hc)
  | .ok _, .error _ => .isFalse (by intro hc; injection hc)

instance {ε α : Type} [DecidableEq ε] [DecidableEq α] : DecidableEq (Except ε α) :=
  exceptDecEq

/-! ## Character-level string infrastructure

Lean 4.14 `String` is a structure wrapping `List Char`, so splitting and
joining are defined on `List Char` and lifted.  `joinSep` is the semantics
of JavaScript's `Array.prototype.join`, `splitSep` of `String.prototype.split`
with a single-character separator. -/

/-- Whitespace characters recognised by the embedding (the subset of JS `\s`
exercised by the code under study). -/
def isWsChar (c : Char) : Bool := c = ' ' || c = '\t' || c = '\r'

def isDigitChar (c : Char) : Bool := '0' ≤ c && c ≤ '9'

/-- `Array.prototype.join` with a one-character separator. -/
def joinSep (sep : Char) : List (List Char) → List Char
  | [] => []
  | [l] => l
  | l :: ls => l ++ sep :: joinSep sep ls

/-- `String.prototype.split` with a one-character separator. -/
def splitSep (sep : Char) : List Char → List (List Char)
  | [] => [[]]
  | c :: rest =>
    if c = sep then [] :: splitSep sep rest
    else match splitSep sep rest with
      | [] => [[c]]
      | l :: ls => (c :: l) :: ls

/-- Trim leading and trailing whitespace (JS `String.prototype.trim` on the
whitespace subset above). -/
def trimChars (l : List Char) : List Char :=
  ((l.dropWhile isWsChar).reverse.dropWhile isWsChar).reverse

def splitLines (s : String) : List String :=
  (splitSep '\n' s.data).map (fun l => ⟨l⟩)

/-- `lines.join('\n')`. -/
def joinNl (ls : List String) : String :=
  ⟨joinSep '\n' (ls.map String.data)⟩

/-- First index of an element in a list (JS `Array.prototype.indexOf`;
list elements play the role of distinct object references, so equality is
structural). -/
def jsIndexOf {α : Type} [DecidableEq α] (a : α) : List α → Nat
  | [] => 0
  | b :: l => if a = b then 0 else jsIndexOf a l + 1

/-- First value stored under a key in an insertion-ordered attribute map
(JS object property access). -/
def lookupKey (k : String) : List (String × Val) → Option Val
  | [] => none
  | kv :: rest => if kv.1 = k then some kv.2 else lookupKey k rest

/-! ## Decimal numerals

JavaScript renders the integers appearing here (array indices, `order`
values) in plain decimal.  `natDigits` is that decimal rendering;
`parseDigits` reads it back. -/

def natDigitsGo : Nat → Nat → List Char
  | 0, _ => []
  | fuel + 1, n =>
    if n < 10 then [Char.ofNat (48 + n)]
    else natDigitsGo fuel (n / 10) ++ [Char.ofNat (48 + n % 10)]

def natDigits (n : Nat) : List Char := natDigitsGo (n + 1) n

def parseDigits (l : List Char) : Nat :=
  l.foldl (fun acc c => 10 * acc + (c.toNat - 48)) 0

/-- Rendering of an integer as JS `${value}` produces. -/
def intChars (n : Int) : List Char :=
  if n < 0 then '-' :: natDigits (-n).toNat else natDigits n.toNat

def renderVal : Val → String
  | .str s => s
  | .num n => ⟨intChars n⟩

/-- Decimal integer literals accepted by the scalar parser model: `0`, or an
optional minus sign followed by digits without a leading zero. -/
def isPosDigits : List Char → Bool
  | [] => false
  | c :: rest => isDigitChar c && c != '0' && rest.all isDigitChar

def isIntChars (l : List Char) : Bool :=
  if l = ['0'] then true
  else match l with
    | [] => false
    | c :: rest => if c = '-' then isPosDigits rest else isPosDigits (c :: rest)

def parseIntChars (l : List Char) : Int :=
  if l.head? = some '-' then - (parseDigits (l.drop 1) : Int)
  else (parseDigits l : Int)

/-! ## Document codec

`parseFM` models the `front-matter` npm library (js-yaml under the hood) as
used by `processFileContent`, restricted to the fragment the program
exercises: a leading block delimited by `---` lines holding one `key: value`
pair per line, with scalar values that are double-quoted strings, canonical
decimal integers, or plain strings.  Lines inside the block that are not
`key: value` pairs are skipped.  The library's multiline-regex delimiter
matching consumes the run of blank lines that follows the closing delimiter;
`parseFM` mirrors that with `dropWhile`. -/

/-- ASCII letter test. -/
def isAsciiLetter (c : Char) : Bool :=
  ('a' ≤ c && c ≤ 'z') || ('A' ≤ c && c ≤ 'Z')

def lowerAscii (c : Char) : Char :=
  if 'A' ≤ c ∧ c ≤ 'Z' then Char.ofNat (c.toNat + 32) else c

/-- Plain-scalar words that js-yaml's YAML 1.1 schema resolves to booleans or
null (`true`/`false`/`yes`/`no`/`on`/`off`/`null`, the single letters `y`/`n`
and `~`), compared case-insensitively.  The comparison is deliberately a
little wider than the library's exact case sets; widening only shrinks the
certified plain-string fragment. -/
def yamlWord (l : List Char) : Bool :=
  (l.map lowerAscii) ∈ [
    ['t', 'r', 'u', 'e'], ['f', 'a', 'l', 's', 'e'],
    ['y', 'e', 's'], ['n', 'o'], ['o', 'n'], ['o', 'f', 'f'],
    ['n', 'u', 'l', 'l'], ['y'], ['n'], ['~']]

def plainCharOk (c : Char) : Bool :=
  isAsciiLetter c || isDigitChar c || c = ' ' || c = '_' || c = '.' ||
    c = '/' || c = '-'

/-- The certified plain scalars: they start with an ASCII letter (which rules
out every int/float/timestamp/sexagesimal form), contain only letters,
digits, spaces and `_ . / -` (which rules out colons, comments, quotes,
YAML indicator characters and tabs), and are not one of the boolean/null
words.  js-yaml resolves every such scalar to the identical string. -/
def plainSafe (l : List Char) : Bool :=
  match l with
  | [] => false
  | c :: _ => isAsciiLetter c && l.all plainCharOk && !yamlWord l

/-- The certified mapping keys: an ASCII letter followed by letters, digits,
`_` or `-`.  js-yaml reads every such plain key as the identical string. -/
def keySafeChars (l : List Char) : Bool :=
  match l with
  | [] => false
  | c :: _ => isAsciiLetter c &&
      l.all (fun x => isAsciiLetter x || isDigitChar x || x = '_' || x = '-')

/-- The interior of a double-quoted scalar, when the text is one. -/
def quotedBody? (t : List Char) : Option (List Char) :=
  if 2 ≤ t.length ∧ t.head? = some '"' ∧ t.getLast? = some '"' then
    some ((t.drop 1).dropLast)
  else none

/-- Scalar resolution on trimmed text, as an `Except`: the `ok` branch is
the certified fragment on which the model is faithful to js-yaml
(escape-free double-quoted strings, canonical decimal integers, and
`plainSafe` strings); everything else — leading-zero or hex integers,
floats, booleans, nulls, timestamps, colon-bearing plain text, escapes — is
reported as an error.  On that error branch js-yaml itself either throws or
resolves to a value outside the `string | number` attribute type; both lie
outside the certified fragment, and no theorem below relies on the error
branch except at inputs where the library genuinely throws. -/
def classifyScalar (t : List Char) : Except String Val :=
  match quotedBody? t with
  | some interior =>
    if interior.all (fun c => c != '"' && c != '\\' && c != '\n' && c != '\r') then
      .ok (.str ⟨interior⟩)
    else .error "YAMLException: unmodelled quoted scalar"
  | none =>
    if isIntChars t then .ok (.num (parseIntChars t))
    else if plainSafe t then .ok (.str ⟨t⟩)
    else .error "YAMLException: unmodelled or non-plain scalar"

/-- js-yaml scalar loading of one value text (trim, then classify). -/
def yamlScalarV (s : String) : Except String Val :=
  classifyScalar (trimChars s.data)

def isBlankLine (l : String) : Bool := l.data.all isWsChar

/-- A closing front-matter delimiter line: `---` or `...` followed only by
whitespace. -/
def isCloseDelim (l : String) : Bool :=
  match l.data with
  | a :: b :: c :: rest =>
    (((a == '-') && (b == '-') && (c == '-')) ||
     ((a == '.') && (b == '.') && (c == '.'))) && rest.all isWsChar
  | _ => false

/-- Split a line at the first `": "` into key and value text. -/
def splitKV : List Char → Option (List Char × List Char)
  | [] => none
  | c :: rest =>
    if c = ':' ∧ rest.head? = some ' ' then some ([], rest.drop 1)
    else (splitKV rest).map (fun p => (c :: p.1, p.2))

/-- One line of the metadata block: blank lines are skipped, a certified
`key: value` line yields its pair, and anything else — a line without
`": "`, an uncertified key, a second `": "` reaching the value, an
uncertified scalar — is an error, as js-yaml throws on the corresponding
constructs (nested mappings, bad indentation, and so on). -/
def lineToKV (l : String) : Except String (Option (String × Val)) :=
  if isBlankLine l then .ok none
  else match splitKV l.data with
    | none => .error ("YAMLException: cannot parse metadata line: " ++ l)
    | some (k, v) =>
      if keySafeChars k then
        match yamlScalarV ⟨v⟩ with
        | .ok w => .ok (some (⟨k⟩, w))
        | .error e => .error e
      else .error ("YAMLException: unmodelled mapping key in line: " ++ l)

/-- Find the closing delimiter line: returns the lines before it and the
lines after it. -/
def findClose : List String → Option (List String × List String)
  | [] => none
  | l :: ls =>
    if isCloseDelim l then some ([], ls)
    else (findClose ls).map (fun p => (l :: p.1, p.2))

def parseInnerAux : List String → Except String (List (String × Val))
  | [] => .ok []
  | l :: ls =>
    match lineToKV l with
    | .error e => .error e
    | .ok none => parseInnerAux ls
    | .ok (some kv) =>
      match parseInnerAux ls with
      | .error e => .error e
      | .ok kvs => .ok (kv :: kvs)

/-- Parse the lines of a metadata block; js-yaml throws on duplicated
mapping keys, which the model mirrors with a final distinctness check. -/
def parseInner (ls : List String) : Except String (List (String × Val)) :=
  match parseInnerAux ls with
  | .error e => .error e
  | .ok attrs =>
    if (attrs.map Prod.fst).Nodup then .ok attrs
    else .error "YAMLException: duplicated mapping key"

/-- Parse a delimited metadata block: the lines before the closing delimiter
become attributes, the lines after it (less leading blank lines) become the
body.  With no closing delimiter the whole content is body. -/
def parseBlock (rest : List String) (content : String) :
    Except String (List (String × Val) × String) :=
  match findClose rest with
  | none => .ok ([], content)
  | some (inner, after) =>
    match parseInner inner with
    | .error e => .error e
    | .ok attrs =>
      .ok (attrs, joinNl (after.dropWhile (fun l => isBlankLine l)))

/-- `matter(content)` : parse a document into its attribute map and body.
An error models a thrown `YAMLException`; the no-delimiter branches never
throw in the library either. -/
def parseFM (content : String) : Except String (List (String × Val) × String) :=
  match splitLines content with
  | [] => .ok ([], content)
  | l₀ :: rest => if l₀ = "---" then parseBlock rest content else .ok ([], content)

/-- One serialized attribute line, as built in `updateCollectionFileOrder`:
`` `${key}: ${value}` ``. -/
def attrLine (kv : String × Val) : String := kv.1 ++ ": " ++ renderVal kv.2

/-- The serializer used by the Order/Commit Builder
(`['---', matter, '---', '', body].join('\n')`). -/
def serializeFM (attrs : List (String × Val)) (body : String) : String :=
  joinNl ["---", joinNl (attrs.map attrLine), "---", "", body]

/-! ## Data model (`TreeItem`, `CollectionFile`, commits, repository state) -/

/-- One entry of the repository tree listing returned by `getRepoFiles`. -/
structure TreeItem where
  path : String
  sha : String
deriving DecidableEq, Repr

/-- A parsed collection member (`CollectionFile` in the source). -/
structure CollectionFile where
  id : String
  title : Val
  path : String
  attributes : List (String × Val)
  body : String
deriving DecidableEq, Repr

/-- One file change inside a commit payload. -/
structure CommitFileChange where
  path : String
  content : String
deriving DecidableEq, Repr

/-- The single commit payload handed to `commitAndPush`. -/
structure Commit where
  message : String
  files : List CommitFileChange
deriving DecidableEq, Repr

/-- Modelled from the spec: `getDirname` from `lib/pathUtils` (not under
`src/`) — the parent directory of a repo-relative path (text before the last
slash, empty for top-level entries). -/
def getDirname (p : String) : String :=
  ⟨joinSep '/' (splitSep '/' p.data).dropLast⟩

/-- Modelled from the spec: `isMarkdown` from `lib/pathUtils` (not under
`src/`) — membership in the markdown extension family. -/
def isMarkdown (p : String) : Bool :=
  (splitSep '.' p.data).getLastD [] ∈ [['m', 'd'], ['m', 'd', 'x'], ['m', 'a', 'r', 'k', 'd', 'o', 'w', 'n']]

/-- `collection.route.replace(/^\//, '')`. -/
def stripLeadingSlash (r : String) : String :=
  match r.data with
  | '/' :: rest => ⟨rest⟩
  | _ => r

/-! ## Collection loader (`processFileContent`, `getCollectionFiles`) -/

/-- The tree filter inside `getCollectionFiles`. -/
def collectionTree (tree : List TreeItem) (route : String) : List TreeItem :=
  tree.filter (fun f => getDirname f.path == stripLeadingSlash route && isMarkdown f.path)

/-- The per-attribute rewrite in `updateCollectionFileOrder`:
`key === 'order'` is replaced by `files.indexOf(file)`, every other entry is
kept. -/
def overrideOrder (files : List CollectionFile) (file : CollectionFile)
    (kv : String × Val) : String × Val :=
  if kv.1 = "order" then (kv.1, Val.num (jsIndexOf file files)) else kv

/-- The content serialized for one file during a reorder. -/
def fileOrderContent (files : List CollectionFile) (file : CollectionFile) : String :=
  serializeFM (file.attributes.map (overrideOrder files file)) file.body

/-- `updateCollectionFileOrder`: build the single commit payload (one
`commitAndPush` call) with one file change per document. -/
def updateCollectionFileOrder (collectionRoute : String)
    (files : List CollectionFile) : Commit :=
  { message := "Updated order for files in " ++ collectionRoute
    files := files.map (fun f => { path := f.path, content := fileOrderContent files f }) }

/-! ## Config lifecycle (`createConfigFile`, `updateConfigFile`)

The repository is modelled as a list of path/content pairs; blob identifiers
are content-addressed through an abstract `shaOf`.  `saveFile` is the
provider write primitive from `lib/github` (not under `src/`). -/

structure RepoFile where
  path : String
  content : String
deriving DecidableEq, Repr

abbrev RepoState := List RepoFile

/-- One write issued to the provider. -/
structure SaveOp where
  path : String
  content : String
  message : String
  sha : Option String
deriving DecidableEq, Repr

def findFile (s : RepoState) (path : String) : Option RepoFile :=
  s.find? (fun f => f.path == path)

/-- Modelled from the spec: `saveFile` from `lib/github` (not under `src/`) —
a write carrying the current sha of an existing file replaces its content; a
write whose expected sha does not match is rejected by the provider as a
conflict; a write without a sha creates a new file. -/
def saveFile (shaOf : String → String) (s : RepoState) (op : SaveOp) :
    Except String RepoState :=
  match findFile s op.path with
  | some existing =>
    if op.sha = some (shaOf existing.content) then
      .ok (s.map (fun f => if f.path = op.path then { f with content := op.content } else f))
    else .error "Conflict"
  | none =>
    match op.sha with
    | none => .ok (s ++ [{ path := op.path, content := op.content }])
    | some _ => .error "Conflict"

def CONFIG_FILE_NAME : String := "pressunto.config.json"

def CONFIG_FILE_TEMPLATE : String :=
  "\x7b\n  \"collections\": [],\n  \"templates\": []\n\x7d\n"

def configSaveOp : SaveOp :=
  { path := CONFIG_FILE_NAME
    content := CONFIG_FILE_TEMPLATE
    message := "[skip ci] Create config file for Pressunto"
    sha := none }

/-- `createConfigFile`: list the tree, return without writing when the config
document already exists, otherwise write the default template.  The returned
list records the writes performed. -/
def createConfigFile (shaOf : String → String) (s : RepoState) :
    Except String (RepoState × List SaveOp) :=
  match findFile s CONFIG_FILE_NAME with
  | some _ => .ok (s, [])
  | none =>
    match saveFile shaOf s configSaveOp with
    | .error e => .error e
    | .ok s₁ => .ok (s₁, [configSaveOp])

/-- `updateConfigFile`: fetch the current config document (from the state as
it was at fetch time) to obtain its sha, then save the new content against
the state at write time using that sha as the expected base. -/
def updateConfigFile (shaOf : String → String) (fetchState saveState : RepoState)
    (newContent : String) : Except String RepoState :=
  let file := findFile fetchState CONFIG_FILE_NAME
  saveFile shaOf saveState
    { path := CONFIG_FILE_NAME
      content := newContent
      message := "[skip ci] Update config file for Pressunto"
      sha := file.map (fun f => shaOf f.content) }

/-- The inner lines of a serialized metadata block: an empty attribute map
serializes to a single empty line. -/
def serLines (attrs : List (String × Val)) : List String :=
  match attrs with
  | [] => [""]
  | _ => attrs.map attrLine


/-- The value a bare rendering re-reads as, when it re-reads at all. -/
def reparseVal (v : Val) : Val :=
  match yamlScalarV (renderVal v) with
  | .ok w => w
  | .error _ => v

/-- The bare rendering of the value parses back inside the certified
fragment (not necessarily to the same value). -/
def renderScalarOk (v : Val) : Bool :=
  match yamlScalarV (renderVal v) with
  | .ok _ => true
  | .error _ => false

/-- A value whose bare rendering re-parses, inside the certified fragment,
to the very same value: integers, and plain-safe strings.  Quoted-looking,
numeric-looking, colon-bearing, boolean-word or otherwise uncertified
strings all fail this test. -/
def stableScalar (v : Val) : Bool :=
  match yamlScalarV (renderVal v) with
  | .ok w => w = v
  | .error _ => false

/-- A body that survives the blank-line stripping after the closing
delimiter: empty, or starting with a non-blank line. -/
def bodyOk (body : String) : Bool :=
  body == "" || !(isBlankLine ((splitLines body).headD ""))

/-! ## Concrete documents and blobs used by witnesses and counterexamples -/

/-- A document whose attribute map has no `order` key. -/
def exNoOrder : CollectionFile :=
  { id := "sha-a", title := .str "A", path := "posts/a.md"
    attributes := [("title", .str "A")], body := "hello" }

def exOrd0 : CollectionFile :=
  { id := "sha-b", title := .str "B", path := "posts/b.md"
    attributes := [("title", .str "B"), ("order", .num 7)], body := "bbb" }

def exOrd1 : CollectionFile :=
  { id := "sha-c", title := .str "C", path := "posts/c.md"
    attributes := [("title", .str "C"), ("order", .num 3)], body := "ccc" }

/-- A document with an empty attribute map. -/
def exNoMeta : CollectionFile :=
  { id := "sha-d", title := .str "d", path := "posts/d.md"
    attributes := [], body := "plain body" }


/-- A document whose `foo` attribute is the string `"3"` — exactly what
parsing a quoted `foo: "3"` produces. -/
def exStr3 : CollectionFile :=
  { id := "sha-e", title := .str "E", path := "posts/e.md"
    attributes := [("foo", .str "3")], body := "b" }

theorem mk_data (s : String) : (⟨s.data⟩ : String) = s := by
  cases s
  rfl

theorem data_append (s t : String) : (s ++ t).data = s.data ++ t.data := by
  cases s
  cases t
  rfl

theorem splitSep_ne_nil (sep : Char) (l : List Char) : splitSep sep l ≠ [] := by
  induction l with
  | nil => simp [splitSep]
  | cons c rest ih =>
    simp only [splitSep]
    by_cases h : c = sep
    · simp [h]
    · simp only [if_neg h]
      cases hr : splitSep sep rest with
      | nil => simp
      | cons l ls => simp

theorem joinSep_splitSep (sep : Char) (l : List Char) :
    joinSep sep (splitSep sep l) = l := by
  induction l with
  | nil => rfl
  | cons c rest ih =>
    simp only [splitSep]
    by_cases h : c = sep
    · simp only [if_pos h]
      cases hr : splitSep sep rest with
      | nil => exact absurd hr (splitSep_ne_nil sep rest)
      | cons l ls =>
        rw [hr] at ih
        simp [joinSep, ih, h]
    · simp only [if_neg h]
      cases hr : splitSep sep rest with
      | nil => exact absurd hr (splitSep_ne_nil sep rest)
      | cons l ls =>
        rw [hr] at ih
        cases ls with
        | nil => simp_all [joinSep]
        | cons l₂ ls₂ => simp_all [joinSep]

theorem splitSep_append_sep (sep : Char) (a b : List Char)
    (h : ∀ c ∈ a, c ≠ sep) :
    splitSep sep (a ++ sep :: b) = a :: splitSep sep b := by
  induction a with
  | nil => simp [splitSep]
  | cons c a ih =>
    have hc : c ≠ sep := h c (by simp)
    have ih' := ih (fun x hx => h x (by simp [hx]))
    simp only [List.cons_append, splitSep, if_neg hc]
    rw [show (a.append (sep :: b)) = a ++ sep :: b from rfl, ih']

theorem splitSep_of_no_sep (sep : Char) (a : List Char)
    (h : ∀ c ∈ a, c ≠ sep) :
    splitSep sep a = [a] := by
  induction a with
  | nil => rfl
  | cons c a ih =>
    have hc : c ≠ sep := h c (by simp)
    have ih' := ih (fun x hx => h x (by simp [hx]))
    simp only [splitSep, if_neg hc]
    rw [ih']

theorem joinNl_splitLines (s : String) : joinNl (splitLines s) = s := by
  unfold joinNl splitLines
  rw [List.map_map]
  have : (String.data ∘ fun l : List Char => (⟨l⟩ : String)) = id := by
    funext l
    rfl
  rw [this, List.map_id, joinSep_splitSep]

theorem splitSep_join_append (sep : Char) (ls : List (List Char)) (rest : List Char)
    (hne : ls ≠ []) (h : ∀ l ∈ ls, ∀ c ∈ l, c ≠ sep) :
    splitSep sep (joinSep sep ls ++ sep :: rest) = ls ++ splitSep sep rest := by
  induction ls with
  | nil => exact absurd rfl hne
  | cons l ls ih =>
    cases ls with
    | nil =>
      simp only [joinSep, List.cons_append, List.nil_append]
      exact splitSep_append_sep sep l rest (h l (by simp))
    | cons l₂ ls₂ =>
      have step : joinSep sep (l :: l₂ :: ls₂) = l ++ sep :: joinSep sep (l₂ :: ls₂) := rfl
      rw [step, List.append_assoc, List.cons_append,
        splitSep_append_sep sep l _ (h l (by simp)),
        ih (by simp) (fun x hx c hc => h x (by simp [hx]) c hc)]
      rfl

theorem attrLine_data (kv : String × Val) :
    (attrLine kv).data = kv.1.data ++ ':' :: ' ' :: (renderVal kv.2).data := by
  unfold attrLine
  rw [data_append, data_append]
  simp [show (": " : String).data = [':', ' '] from rfl]

theorem colon_mem_attrLine (kv : String × Val) : ':' ∈ (attrLine kv).data := by
  rw [attrLine_data]
  simp

theorem isCloseDelim_chars (l : String) (h : isCloseDelim l = true) :
    ∀ x ∈ l.data, x ≠ ':' := by
  unfold isCloseDelim at h
  intro x hx
  cases hd : l.data with
  | nil => simp [hd] at hx
  | cons a t₁ =>
    cases t₁ with
    | nil =>
      rw [hd] at h
      simp at h
    | cons b t₂ =>
      cases t₂ with
      | nil =>
        rw [hd] at h
        simp at h
      | cons c rest =>
        rw [hd] at h
        simp only [Bool.and_eq_true, Bool.or_eq_true, beq_iff_eq, List.all_eq_true] at h
        obtain ⟨h3, hws⟩ := h
        rw [hd] at hx
        simp only [List.mem_cons] at hx
        rcases hx with hx | hx | hx | hx
        · subst hx
          rcases h3 with ⟨⟨h1, h2⟩, h3⟩ | ⟨⟨h1, h2⟩, h3⟩ <;> (rw [h1]; decide)
        · subst hx
          rcases h3 with ⟨⟨h1, h2⟩, h3⟩ | ⟨⟨h1, h2⟩, h3⟩ <;> (rw [h2]; decide)
        · subst hx
          rcases h3 with ⟨⟨h1, h2⟩, h3⟩ | ⟨⟨h1, h2⟩, h3⟩ <;> (rw [h3]; decide)
        · intro heq
          have := hws x hx
          rw [heq] at this
          simp [isWsChar] at this

theorem isCloseDelim_of_colon (l : String) (h : ':' ∈ l.data) :
    isCloseDelim l = false := by
  cases hcl : isCloseDelim l with
  | false => rfl
  | true => exact absurd rfl (isCloseDelim_chars l hcl ':' h)

theorem findClose_append (pre post : List String) (d : String)
    (hpre : ∀ l ∈ pre, isCloseDelim l = false) (hd : isCloseDelim d = true) :
    findClose (pre ++ d :: post) = some (pre, post) := by
  induction pre with
  | nil => simp [findClose, hd]
  | cons l pre ih =>
    have hl : isCloseDelim l = false := hpre l (by simp)
    rw [List.cons_append]
    simp only [findClose, hl, Bool.false_eq_true, if_false,
      ih (fun x hx => hpre x (by simp [hx])), Option.map_some']

theorem splitKV_append (k v : List Char) (hk : ∀ c ∈ k, c ≠ ':') :
    splitKV (k ++ ':' :: ' ' :: v) = some (k, v) := by
  induction k with
  | nil => simp [splitKV]
  | cons c k ih =>
    have hc : c ≠ ':' := hk c (by simp)
    rw [List.cons_append]
    simp only [splitKV, ih (fun x hx => hk x (by simp [hx]))]
    rw [if_neg (fun hand => hc hand.1)]
    rfl

theorem joinNl_data (ls : List String) :
    (joinNl ls).data = joinSep '\n' (ls.map String.data) := rfl

theorem serializeFM_data (attrs : List (String × Val)) (body : String) :
    (serializeFM attrs body).data =
      "---".data ++ '\n' ::
        ((joinNl (attrs.map attrLine)).data ++ '\n' ::
          ("---".data ++ '\n' :: '\n' :: body.data)) := by
  unfold serializeFM
  rw [joinNl_data]
  simp only [List.map_cons, List.map_nil, joinSep]
  rfl

theorem splitLines_serializeFM (attrs : List (String × Val)) (body : String)
    (h : ∀ kv ∈ attrs, ∀ c ∈ (attrLine kv).data, c ≠ '\n') :
    splitLines (serializeFM attrs body) =
      "---" :: serLines attrs ++ "---" :: "" :: splitLines body := by
  unfold splitLines
  rw [serializeFM_data]
  rw [splitSep_append_sep _ _ _ (by decide)]
  cases attrs with
  | nil =>
    rw [show (joinNl (List.map attrLine ([] : List (String × Val)))).data = [] from rfl]
    rw [List.nil_append]
    rw [show splitSep '\n' ('\n' :: ("---".data ++ '\n' :: '\n' :: body.data)) =
      [] :: splitSep '\n' ("---".data ++ '\n' :: '\n' :: body.data) by simp [splitSep]]
    rw [splitSep_append_sep _ _ _ (by decide)]
    rw [show splitSep '\n' ('\n' :: body.data) = [] :: splitSep '\n' body.data by
      simp [splitSep]]
    simp [serLines, mk_data]
  | cons kv rest =>
    rw [joinNl_data]
    rw [splitSep_join_append '\n' (((kv :: rest).map attrLine).map String.data) _
      (by simp)
      (by
        intro l hl c hc
        simp only [List.map_map, List.mem_map] at hl
        obtain ⟨kv', hkv', hdata⟩ := hl
        exact h kv' hkv' c (by rw [← hdata] at hc; exact hc))]
    rw [splitSep_append_sep _ _ _ (by decide)]
    rw [show splitSep '\n' ('\n' :: body.data) = [] :: splitSep '\n' body.data by
      simp [splitSep]]
    simp only [List.map_cons, List.map_append, List.map_map, serLines]
    simp [mk_data, Function.comp_def]

theorem splitLines_ne_nil (s : String) : splitLines s ≠ [] := by
  unfold splitLines
  intro h
  exact splitSep_ne_nil '\n' s.data (List.map_eq_nil_iff.mp h)

theorem serLines_not_close (attrs : List (String × Val)) :
    ∀ l ∈ serLines attrs, isCloseDelim l = false := by
  cases attrs with
  | nil =>
    intro l hl
    simp only [serLines, List.mem_singleton] at hl
    subst hl
    decide
  | cons kv rest =>
    intro l hl
    simp only [serLines, List.mem_map] at hl
    obtain ⟨kv', _, hdata⟩ := hl
    exact isCloseDelim_of_colon l (hdata ▸ colon_mem_attrLine kv')

theorem bodyReparse (body : String) (hb : bodyOk body = true) :
    joinNl ((splitLines body).dropWhile (fun l => isBlankLine l)) = body := by
  unfold bodyOk at hb
  by_cases h : body = ""
  · subst h
    rfl
  · rw [show (body == "") = false by simpa using h, Bool.false_or] at hb
    cases hsl : splitLines body with
    | nil => exact absurd hsl (splitLines_ne_nil body)
    | cons l rest =>
      rw [hsl] at hb
      simp only [List.headD_cons, Bool.not_eq_true'] at hb
      simp only [List.dropWhile_cons, hb, Bool.false_eq_true, if_false]
      rw [← hsl, joinNl_splitLines]

theorem natDigitsGo_congr (fuel₁ : Nat) : ∀ (n fuel₂ : Nat), n < fuel₁ → n < fuel₂ →
    natDigitsGo fuel₁ n = natDigitsGo fuel₂ n := by
  induction fuel₁ using Nat.strong_induction_on with
  | _ fuel₁ ih =>
    intro n fuel₂ h₁ h₂
    match fuel₁, fuel₂ with
    | f₁ + 1, f₂ + 1 =>
      simp only [natDigitsGo]
      by_cases h : n < 10
      · simp [h]
      · have hd : n / 10 < n := Nat.div_lt_self (by omega) (by omega)
        simp only [if_neg h]
        rw [ih f₁ (by omega) (n / 10) f₂ (by omega) (by omega)]

theorem natDigits_of_lt (n : Nat) (h : n < 10) :
    natDigits n = [Char.ofNat (48 + n)] := by
  unfold natDigits natDigitsGo
  simp [h]

theorem natDigits_of_ge (n : Nat) (h : 10 ≤ n) :
    natDigits n = natDigits (n / 10) ++ [Char.ofNat (48 + n % 10)] := by
  have hd : n / 10 < n := Nat.div_lt_self (by omega) (by omega)
  unfold natDigits
  rw [show natDigitsGo (n + 1) n
      = natDigitsGo n (n / 10) ++ [Char.ofNat (48 + n % 10)] by
    simp [natDigitsGo, Nat.not_lt.mpr h]]
  rw [natDigitsGo_congr n (n / 10) (n / 10 + 1) (by omega) (by omega)]

theorem char_toNat_48 (m : Nat) (h : m < 10) :
    (Char.ofNat (48 + m)).toNat = 48 + m := by
  interval_cases m <;> decide

theorem natDigits_all_digit (n : Nat) :
    ∀ c ∈ natDigits n, isDigitChar c = true := by
  induction n using Nat.strong_induction_on with
  | _ n ih =>
    by_cases h : n < 10
    · interval_cases n <;> decide
    · rw [natDigits_of_ge n (by omega)]
      intro c hc
      rcases List.mem_append.mp hc with hm | hm
      · exact ih (n / 10) (Nat.div_lt_self (by omega) (by omega)) c hm
      · have hlt : n % 10 < 10 := Nat.mod_lt _ (by omega)
        have hc2 : c = Char.ofNat (48 + n % 10) := by simpa using hm
        subst hc2
        generalize hq : n % 10 = m at hlt
        interval_cases m <;> decide

theorem natDigits_ne_nil (n : Nat) : natDigits n ≠ [] := by
  by_cases h : n < 10
  · rw [natDigits_of_lt n h]
    simp
  · rw [natDigits_of_ge n (by omega)]
    simp

theorem parseDigits_append (a : List Char) (c : Char) :
    parseDigits (a ++ [c]) = 10 * parseDigits a + (c.toNat - 48) := by
  unfold parseDigits
  rw [List.foldl_append]
  rfl

theorem parseDigits_natDigits (n : Nat) : parseDigits (natDigits n) = n := by
  induction n using Nat.strong_induction_on with
  | _ n ih =>
    by_cases h : n < 10
    · interval_cases n <;> decide
    · rw [natDigits_of_ge n (by omega), parseDigits_append,
        ih (n / 10) (Nat.div_lt_self (by omega) (by omega)),
        char_toNat_48 (n % 10) (Nat.mod_lt _ (by omega))]
      omega

theorem natDigits_head_ne_zero (n : Nat) (hn : n ≠ 0) :
    ∀ c, (natDigits n).head? = some c → c ≠ '0' := by
  induction n using Nat.strong_induction_on with
  | _ n ih =>
    intro c hc
    by_cases h : n < 10
    · rw [natDigits_of_lt n h] at hc
      simp only [List.head?_cons, Option.some_inj] at hc
      subst hc
      generalize hq : n = m at hn h
      interval_cases m <;> simp_all
    · rw [natDigits_of_ge n (by omega)] at hc
      cases hd : natDigits (n / 10) with
      | nil => exact absurd hd (natDigits_ne_nil (n / 10))
      | cons d ds =>
        rw [hd] at hc
        simp only [List.cons_append, List.head?_cons, Option.some_inj] at hc
        subst hc
        have h10 : n / 10 ≠ 0 := by omega
        exact ih (n / 10) (Nat.div_lt_self (by omega) (by omega)) h10 d
          (by rw [hd]; rfl)

theorem isIntChars_natDigits (n : Nat) : isIntChars (natDigits n) = true := by
  by_cases h0 : n = 0
  · subst h0
    decide
  · unfold isIntChars
    by_cases he : natDigits n = ['0']
    · simp [he]
    · rw [if_neg he]
      cases hd : natDigits n with
      | nil => exact absurd hd (natDigits_ne_nil n)
      | cons d ds =>
        have hdd : isDigitChar d = true :=
          natDigits_all_digit n d (by rw [hd]; simp)
        have hdz : d ≠ '0' :=
          natDigits_head_ne_zero n h0 d (by rw [hd]; rfl)
        have hds : ds.all isDigitChar = true := by
          rw [List.all_eq_true]
          intro x hx
          exact natDigits_all_digit n x (by rw [hd]; simp [hx])
        have hnd : d ≠ '-' := by
          intro hq
          rw [hq] at hdd
          exact absurd hdd (by decide)
        show (if d = '-' then isPosDigits ds else isPosDigits (d :: ds)) = true
        rw [if_neg hnd]
        show (isDigitChar d && d != '0' && ds.all isDigitChar) = true
        simp [hdd, hdz, hds]

theorem ws_of_digit (c : Char) (h : isDigitChar c = true) : isWsChar c = false := by
  cases hcw : isWsChar c with
  | false => rfl
  | true =>
    have hck : (c = ' ' ∨ c = '\t') ∨ c = '\r' := by simpa [isWsChar] using hcw
    rcases hck with (hc | hc) | hc <;> (subst hc; exact absurd h (by decide))

theorem trimChars_of_no_ws (l : List Char) (h : ∀ c ∈ l, isWsChar c = false) :
    trimChars l = l := by
  unfold trimChars
  have h1 : l.dropWhile isWsChar = l := by
    rw [List.dropWhile_eq_self_iff]
    intro hd
    simp [h _ (List.getElem_mem hd)]
  rw [h1]
  have h2 : l.reverse.dropWhile isWsChar = l.reverse := by
    rw [List.dropWhile_eq_self_iff]
    intro hd
    have hm : l.reverse[0] ∈ l := List.mem_reverse.mp (List.getElem_mem hd)
    simpa using h _ hm
  rw [h2, List.reverse_reverse]

theorem renderVal_nat (i : Nat) : renderVal (Val.num (i : Int)) = ⟨natDigits i⟩ := by
  show (⟨intChars (i : Int)⟩ : String) = ⟨natDigits i⟩
  unfold intChars
  rw [if_neg (by omega)]
  simp

/-! ## Sort lemmas -/

theorem jsIndexOf_of_nodup {α : Type} [DecidableEq α] (l : List α) (i : Nat) (a : α)
    (hnd : l.Nodup) (hi : l.get? i = some a) : jsIndexOf a l = i := by
  induction l generalizing i with
  | nil => simp at hi
  | cons b l ih =>
    cases i with
    | zero =>
      simp only [List.get?_cons_zero, Option.some_inj] at hi
      unfold jsIndexOf
      rw [if_pos hi.symm]
    | succ i =>
      simp only [List.get?_cons_succ] at hi
      have hmem : a ∈ l := List.get?_mem hi
      have hne : a ≠ b := by
        intro hq
        subst hq
        exact (List.nodup_cons.mp hnd).1 hmem
      unfold jsIndexOf
      rw [if_neg hne, ih i (List.nodup_cons.mp hnd).2 hi]

theorem overrideOrder_fst (files : List CollectionFile) (file : CollectionFile)
    (kv : String × Val) : (overrideOrder files file kv).1 = kv.1 := by
  unfold overrideOrder
  split <;> rfl

theorem string_eq_of_data (s t : String) (h : s.data = t.data) : s = t := by
  cases s
  cases t
  exact congrArg String.mk h

/-- C6: the tree filter selects exactly the entries whose parent directory
equals the route with a leading slash stripped and whose path has a markdown
extension; nested and unrelated entries are excluded, and an empty result
(not an error) comes back when nothing matches; on the tree
`[root/a.md, root/sub/b.md, other/c.md]` with route `root` exactly
`[root/a.md]` is selected. -/
theorem C6_tree_filter :
    (∀ (tree : List TreeItem) (route : String) (f : TreeItem),
      f ∈ collectionTree tree route ↔
        f ∈ tree ∧ getDirname f.path = stripLeadingSlash route ∧
          isMarkdown f.path = true) ∧
    collectionTree
      [⟨"root/a.md", "s1"⟩, ⟨"root/sub/b.md", "s2"⟩, ⟨"other/c.md", "s3"⟩] "root"
      = [⟨"root/a.md", "s1"⟩] ∧
    (∀ (tree : List TreeItem) (route : String),
      (∀ f ∈ tree, ¬(getDirname f.path = stripLeadingSlash route ∧
        isMarkdown f.path = true)) →
      collectionTree tree route = []) := by
  refine ⟨?_, by decide, ?_⟩
  · intro tree route f
    unfold collectionTree
    rw [List.mem_filter]
    simp [and_assoc]
  · intro tree route h
    unfold collectionTree
    rw [List.filter_eq_nil]
    intro f hf
    have := h f hf
    simp only [Bool.and_eq_true, beq_iff_eq]
    tauto

/-- C6 witness: a tree with no entry under the route filters to the empty
list. -/
theorem C6_tree_filter_witness :
    collectionTree [⟨"x/y.txt", "s"⟩] "root" = [] :=
  C6_tree_filter.2.2 [⟨"x/y.txt", "s"⟩] "root" (by decide)

/-- C10: a document with an empty attribute map is rewritten by the reorder
serializer with an empty delimited front-matter block, a blank line, and the
unchanged body. -/
theorem C10_empty_attrs_block (route : String) (files : List CollectionFile)
    (i : Nat) (f : CollectionFile) (hi : files.get? i = some f)
    (hattr : f.attributes = []) :
    (updateCollectionFileOrder route files).files.get? i
      = some { path := f.path, content := "---\n\n---\n\n" ++ f.body } := by
  unfold updateCollectionFileOrder
  rw [List.get?_map, hi]
  have hc : fileOrderContent files f = "---\n\n---\n\n" ++ f.body := by
    unfold fileOrderContent
    rw [hattr]
    apply string_eq_of_data
    rw [serializeFM_data, data_append]
    rfl
  rw [Option.map_some']
  simp [hc]

/-- C10 witness: the concrete no-metadata document is rewritten with an empty
block and its body intact. -/
theorem C10_empty_attrs_block_witness :
    (updateCollectionFileOrder "posts" [exNoMeta]).files.get? 0
      = some { path := "posts/d.md", content := "---\n\n---\n\nplain body" } :=
  C10_empty_attrs_block "posts" [exNoMeta] 0 exNoMeta rfl rfl

theorem findFile_append_self (s : RepoState) (g : RepoFile)
    (h : findFile s g.path = none) :
    findFile (s ++ [g]) g.path = some g := by
  induction s with
  | nil =>
    unfold findFile
    simp [List.find?]
  | cons f s ih =>
    unfold findFile at h ⊢
    rw [List.cons_append]
    cases hq : (f.path == g.path) with
    | true =>
      rw [@List.find?_cons_of_pos RepoFile (fun x => x.path == g.path) f s hq] at h
      simp at h
    | false =>
      have hq2 : ¬((fun x : RepoFile => x.path == g.path) f = true) := by simp [hq]
      rw [@List.find?_cons_of_neg RepoFile (fun x => x.path == g.path) f s hq2] at h
      rw [@List.find?_cons_of_neg RepoFile (fun x => x.path == g.path) f (s ++ [g]) hq2]
      exact ih h

theorem createConfigFile_of_present (shaOf : String → String) (s : RepoState)
    (f : RepoFile) (h : findFile s CONFIG_FILE_NAME = some f) :
    createConfigFile shaOf s = .ok (s, []) := by
  unfold createConfigFile
  rw [h]

theorem saveFile_create (shaOf : String → String) (s : RepoState) (op : SaveOp)
    (h : findFile s op.path = none) (hsha : op.sha = none) :
    saveFile shaOf s op = .ok (s ++ [{ path := op.path, content := op.content }]) := by
  unfold saveFile
  rw [h, hsha]

theorem createConfigFile_of_absent (shaOf : String → String) (s : RepoState)
    (h : findFile s CONFIG_FILE_NAME = none) :
    createConfigFile shaOf s
      = .ok (s ++ [{ path := CONFIG_FILE_NAME, content := CONFIG_FILE_TEMPLATE }],
             [configSaveOp]) := by
  unfold createConfigFile
  rw [h, saveFile_create shaOf s configSaveOp h rfl]
  rfl

/-- C7: `createConfigFile` is idempotent — with the config document present
it performs no write and returns the state unchanged; when absent it performs
exactly one write of the default template under the `[skip ci]` commit
message, after which a second call is a no-op, so the stored document is
byte-identical after each call and two sequential calls perform exactly one
write. -/
theorem C7_ensure_config_idempotent (shaOf : String → String) (s : RepoState) :
    ((∃ f, findFile s CONFIG_FILE_NAME = some f) →
      createConfigFile shaOf s = .ok (s, [])) ∧
    (findFile s CONFIG_FILE_NAME = none →
      createConfigFile shaOf s
        = .ok (s ++ [{ path := CONFIG_FILE_NAME, content := CONFIG_FILE_TEMPLATE }],
               [configSaveOp]) ∧
      findFile (s ++ [{ path := CONFIG_FILE_NAME, content := CONFIG_FILE_TEMPLATE }])
          CONFIG_FILE_NAME
        = some { path := CONFIG_FILE_NAME, content := CONFIG_FILE_TEMPLATE } ∧
      createConfigFile shaOf
          (s ++ [{ path := CONFIG_FILE_NAME, content := CONFIG_FILE_TEMPLATE }])
        = .ok (s ++ [{ path := CONFIG_FILE_NAME, content := CONFIG_FILE_TEMPLATE }],
               [])) := by
  constructor
  · rintro ⟨f, hf⟩
    exact createConfigFile_of_present shaOf s f hf
  · intro h
    have hfind : findFile
        (s ++ [{ path := CONFIG_FILE_NAME, content := CONFIG_FILE_TEMPLATE }])
        CONFIG_FILE_NAME
        = some { path := CONFIG_FILE_NAME, content := CONFIG_FILE_TEMPLATE } :=
      findFile_append_self s _ h
    exact ⟨createConfigFile_of_absent shaOf s h, hfind,
      createConfigFile_of_present shaOf _ _ hfind⟩

/-- C7 witness: with the config document already present, a call performs no
write and leaves the state unchanged. -/
theorem C7_ensure_config_idempotent_witness :
    createConfigFile (fun c => c)
        [{ path := CONFIG_FILE_NAME, content := CONFIG_FILE_TEMPLATE }]
      = .ok ([{ path := CONFIG_FILE_NAME, content := CONFIG_FILE_TEMPLATE }], []) :=
  (C7_ensure_config_idempotent (fun c => c) _).1 ⟨_, rfl⟩

theorem saveFile_some_eq (shaOf : String → String) (s : RepoState) (op : SaveOp)
    (f : RepoFile) (hf : findFile s op.path = some f) :
    saveFile shaOf s op
      = if op.sha = some (shaOf f.content)
        then .ok (s.map (fun g => if g.path = op.path
          then { g with content := op.content } else g))
        else .error "Conflict" := by
  unfold saveFile
  rw [hf]

theorem saveFile_conflict (shaOf : String → String) (s : RepoState) (op : SaveOp)
    (f : RepoFile) (hf : findFile s op.path = some f)
    (hsha : op.sha ≠ some (shaOf f.content)) :
    saveFile shaOf s op = .error "Conflict" := by
  rw [saveFile_some_eq shaOf s op f hf, if_neg hsha]

theorem saveFile_replace (shaOf : String → String) (s : RepoState) (op : SaveOp)
    (f : RepoFile) (hf : findFile s op.path = some f)
    (hsha : op.sha = some (shaOf f.content)) :
    saveFile shaOf s op
      = .ok (s.map (fun g => if g.path = op.path
          then { g with content := op.content } else g)) := by
  rw [saveFile_some_eq shaOf s op f hf, if_pos hsha]

theorem updateConfigFile_eq (shaOf : String → String)
    (fetchState saveState : RepoState) (newContent : String) (f₁ : RepoFile)
    (h₁ : findFile fetchState CONFIG_FILE_NAME = some f₁) :
    updateConfigFile shaOf fetchState saveState newContent
      = saveFile shaOf saveState
          { path := CONFIG_FILE_NAME, content := newContent
            message := "[skip ci] Update config file for Pressunto"
            sha := some (shaOf f₁.content) } := by
  unfold updateConfigFile
  rw [h₁]
  rfl

/-- C8: `updateConfigFile` fetches the current config document for its sha
and issues the write against that expected base, so when the stored document
has changed underneath (its sha no longer matches the fetched one) the write
fails with Conflict and nothing is overwritten; with a matching base the
write replaces the config content. -/
theorem C8_update_config_conflict (shaOf : String → String)
    (fetchState saveState : RepoState) (newContent : String) (f₁ f₂ : RepoFile)
    (h₁ : findFile fetchState CONFIG_FILE_NAME = some f₁)
    (h₂ : findFile saveState CONFIG_FILE_NAME = some f₂) :
    (shaOf f₂.content ≠ shaOf f₁.content →
      updateConfigFile shaOf fetchState saveState newContent = .error "Conflict") ∧
    (shaOf f₂.content = shaOf f₁.content →
      updateConfigFile shaOf fetchState saveState newContent
        = .ok (saveState.map (fun g => if g.path = CONFIG_FILE_NAME
            then { g with content := newContent } else g))) := by
  rw [updateConfigFile_eq shaOf fetchState saveState newContent f₁ h₁]
  constructor
  · intro hne
    apply saveFile_conflict shaOf saveState _ f₂ h₂
    intro hq
    simp only [Option.some_inj] at hq
    exact hne hq.symm
  · intro heq
    apply saveFile_replace shaOf saveState _ f₂ h₂
    show some (shaOf f₁.content) = some (shaOf f₂.content)
    rw [heq]

/-- C8 witness: a stale base sha (config changed from "a" to "b" between the
fetch and the write) makes the update fail with Conflict. -/
theorem C8_update_config_conflict_witness :
    updateConfigFile (fun c => c)
        [{ path := CONFIG_FILE_NAME, content := "a" }]
        [{ path := CONFIG_FILE_NAME, content := "b" }] "new"
      = .error "Conflict" :=
  (C8_update_config_conflict (fun c => c)
    [{ path := CONFIG_FILE_NAME, content := "a" }]
    [{ path := CONFIG_FILE_NAME, content := "b" }] "new"
    { path := CONFIG_FILE_NAME, content := "a" }
    { path := CONFIG_FILE_NAME, content := "b" } (by decide) (by decide)).1
    (by decide)


/-! ## Codec fragment lemmas

The certified fragment: every serialized attribute line with a `keySafeChars`
key and a `renderScalarOk` value re-parses, and the re-read value is
`reparseVal` of the original. -/

theorem keySafeChars_all (k : List Char) (h : keySafeChars k = true) :
    ∀ c ∈ k, isAsciiLetter c = true ∨ isDigitChar c = true ∨ c = '_' ∨ c = '-' := by
  cases k with
  | nil => exact absurd h (by simp [keySafeChars])
  | cons c rest =>
    simp only [keySafeChars, Bool.and_eq_true, List.all_eq_true, Bool.or_eq_true,
      decide_eq_true_eq] at h
    intro x hx
    have := h.2 x hx
    tauto

theorem keySafeChar_props (c : Char)
    (h : isAsciiLetter c = true ∨ isDigitChar c = true ∨ c = '_' ∨ c = '-') :
    c ≠ ':' ∧ c ≠ '\n' := by
  constructor <;> intro he <;> subst he <;>
    rcases h with h | h | h | h <;> exact absurd h (by decide)

theorem keySafeChars_no_colon (k : List Char) (h : keySafeChars k = true) :
    ∀ c ∈ k, c ≠ ':' :=
  fun c hc => (keySafeChar_props c (keySafeChars_all k h c hc)).1

theorem keySafeChars_no_nl (k : List Char) (h : keySafeChars k = true) :
    ∀ c ∈ k, c ≠ '\n' :=
  fun c hc => (keySafeChar_props c (keySafeChars_all k h c hc)).2

theorem quotedBody_spec (t i : List Char) (h : quotedBody? t = some i) :
    t = '"' :: (i ++ ['"']) := by
  unfold quotedBody? at h
  split_ifs at h with hc
  · obtain ⟨h2, hh, hl⟩ := hc
    injection h with h
    cases t with
    | nil => simp at hh
    | cons a r =>
      simp only [List.head?_cons, Option.some_inj] at hh
      subst hh
      have hr : r ≠ [] := by
        intro he
        subst he
        simp at h2
      have hkey := List.dropLast_append_getLast hr
      have hgl : r.getLast hr = '"' := by
        rw [← hkey, ← List.cons_append, List.getLast?_concat] at hl
        exact Option.some_inj.mp hl
      simp only [List.drop_one, List.tail_cons] at h
      rw [← h, ← hgl, hkey]

theorem quotedBody_none_of_head (t : List Char) (h : t.head? ≠ some ('"' : Char)) :
    quotedBody? t = none := by
  unfold quotedBody?
  rw [if_neg]
  intro hc
  exact h hc.2.1

theorem classifyScalar_of_some (t interior : List Char) (h : quotedBody? t = some interior) :
    classifyScalar t =
      (if interior.all (fun c => c != '"' && c != '\\' && c != '\n' && c != '\r') then
        .ok (.str ⟨interior⟩)
      else .error "YAMLException: unmodelled quoted scalar") := by
  unfold classifyScalar
  rw [h]

theorem classifyScalar_of_none (t : List Char) (h : quotedBody? t = none) :
    classifyScalar t =
      (if isIntChars t then .ok (.num (parseIntChars t))
       else if plainSafe t then .ok (.str ⟨t⟩)
       else .error "YAMLException: unmodelled or non-plain scalar") := by
  unfold classifyScalar
  rw [h]

theorem isPosDigits_chars (t : List Char) (h : isPosDigits t = true) :
    ∀ c ∈ t, isDigitChar c = true := by
  cases t with
  | nil => simp [isPosDigits] at h
  | cons d ds =>
    simp only [isPosDigits, Bool.and_eq_true, List.all_eq_true] at h
    intro c hc
    rcases List.mem_cons.mp hc with hc | hc
    · subst hc
      exact h.1.1
    · exact h.2 c hc

theorem isIntChars_cons (c : Char) (rest : List Char) (h0 : c :: rest ≠ ['0']) :
    isIntChars (c :: rest) =
      if c = '-' then isPosDigits rest else isPosDigits (c :: rest) := by
  unfold isIntChars
  rw [if_neg h0]

theorem isIntChars_chars (t : List Char) (h : isIntChars t = true) :
    ∀ c ∈ t, c = '-' ∨ isDigitChar c = true := by
  by_cases h0 : t = ['0']
  · subst h0
    intro c hc
    simp only [List.mem_singleton] at hc
    subst hc
    exact Or.inr (by decide)
  · cases t with
    | nil => simp [isIntChars] at h
    | cons c rest =>
      rw [isIntChars_cons c rest h0] at h
      intro x hx
      by_cases hm : c = '-'
      · subst hm
        rw [if_pos rfl] at h
        rcases List.mem_cons.mp hx with hx | hx
        · exact Or.inl hx
        · exact Or.inr (isPosDigits_chars rest h x hx)
      · rw [if_neg hm] at h
        exact Or.inr (isPosDigits_chars _ h x hx)

theorem plainSafe_chars (t : List Char) (h : plainSafe t = true) :
    ∀ c ∈ t, plainCharOk c = true := by
  cases t with
  | nil => simp [plainSafe] at h
  | cons c rest =>
    simp only [plainSafe, Bool.and_eq_true, List.all_eq_true] at h
    exact h.1.2

theorem plainCharOk_no_nl (c : Char) (h : plainCharOk c = true) : c ≠ '\n' := by
  intro he
  subst he
  exact absurd h (by decide)

theorem classifyScalar_ok_no_nl (t : List Char) (v : Val) (h : classifyScalar t = .ok v) :
    ∀ c ∈ t, c ≠ '\n' := by
  cases hq : quotedBody? t with
  | some interior =>
    rw [classifyScalar_of_some t interior hq] at h
    split_ifs at h with hint
    · intro c hc
      rw [quotedBody_spec t interior hq] at hc
      rcases List.mem_cons.mp hc with hc | hc
      · subst hc
        decide
      · rcases List.mem_append.mp hc with hc | hc
        · have h4 := List.all_eq_true.mp hint c hc
          simp only [Bool.and_eq_true, bne_iff_ne, ne_eq] at h4
          exact h4.1.2
        · simp only [List.mem_singleton] at hc
          subst hc
          decide
  | none =>
    rw [classifyScalar_of_none t hq] at h
    split_ifs at h with hint hps
    · intro c hc he
      rcases isIntChars_chars t hint c hc with hm | hm
      · rw [he] at hm
        exact absurd hm (by decide)
      · rw [he] at hm
        exact absurd hm (by decide)
    · intro c hc
      exact plainCharOk_no_nl c (plainSafe_chars t hps c hc)

theorem takeWhile_append_dropWhile_eq (p : Char → Bool) (m : List Char) :
    m.takeWhile p ++ m.dropWhile p = m := by
  induction m with
  | nil => rfl
  | cons a r ih =>
    by_cases h : p a <;> simp [List.takeWhile_cons, List.dropWhile_cons, h, ih]

theorem mem_takeWhile_pred (p : Char → Bool) (m : List Char) (c : Char)
    (h : c ∈ m.takeWhile p) : p c = true := by
  induction m with
  | nil => simp [List.takeWhile_nil] at h
  | cons a r ih =>
    rw [List.takeWhile_cons] at h
    by_cases hp : p a
    · rw [if_pos hp] at h
      rcases List.mem_cons.mp h with h | h
      · subst h
        exact hp
      · exact ih h
    · rw [if_neg hp] at h
      simp at h

theorem mem_trimChars_or_ws (l : List Char) (c : Char) (hc : c ∈ l) :
    c ∈ trimChars l ∨ isWsChar c = true := by
  by_cases hw : isWsChar c = true
  · exact Or.inr hw
  · refine Or.inl ?_
    unfold trimChars
    rw [List.mem_reverse]
    have step : ∀ m : List Char, c ∈ m → c ∈ m.dropWhile isWsChar := by
      intro m hm
      rw [← takeWhile_append_dropWhile_eq isWsChar m] at hm
      rcases List.mem_append.mp hm with h1 | h1
      · exact absurd (mem_takeWhile_pred isWsChar m c h1) hw
      · exact h1
    exact step _ (List.mem_reverse.mpr (step l hc))

theorem yamlScalarV_render (v : Val) (h : renderScalarOk v = true) :
    yamlScalarV (renderVal v) = .ok (reparseVal v) := by
  unfold renderScalarOk at h
  unfold reparseVal
  cases hy : yamlScalarV (renderVal v) with
  | ok w => rfl
  | error e => rw [hy] at h <;> exact Bool.noConfusion h

theorem renderScalarOk_of_stable (v : Val) (h : stableScalar v = true) :
    renderScalarOk v = true := by
  unfold stableScalar at h
  unfold renderScalarOk
  cases hy : yamlScalarV (renderVal v) with
  | ok w => rfl
  | error e => rw [hy] at h <;> exact Bool.noConfusion h

theorem reparseVal_stable (v : Val) (h : stableScalar v = true) : reparseVal v = v := by
  unfold stableScalar at h
  unfold reparseVal
  cases hy : yamlScalarV (renderVal v) with
  | ok w =>
    rw [hy] at h
    simp only [decide_eq_true_eq] at h
    exact h
  | error e => rw [hy] at h <;> exact Bool.noConfusion h

theorem renderScalarOk_no_nl (v : Val) (h : renderScalarOk v = true) :
    ∀ c ∈ (renderVal v).data, c ≠ '\n' := by
  unfold renderScalarOk at h
  intro c hc
  cases hy : yamlScalarV (renderVal v) with
  | error e => rw [hy] at h <;> exact Bool.noConfusion h
  | ok w =>
    have hcl : classifyScalar (trimChars (renderVal v).data) = .ok w := hy
    rcases mem_trimChars_or_ws (renderVal v).data c hc with hm | hm
    · exact classifyScalar_ok_no_nl _ w hcl c hm
    · intro he
      subst he
      exact absurd hm (by decide)

theorem attrLine_not_blank (kv : String × Val) : isBlankLine (attrLine kv) = false := by
  unfold isBlankLine
  cases hall : (attrLine kv).data.all isWsChar with
  | false => rfl
  | true =>
    have := List.all_eq_true.mp hall ':' (colon_mem_attrLine kv)
    exact absurd this (by decide)

theorem lineToKV_attrLine (k : String) (v : Val)
    (hk : keySafeChars k.data = true) (hv : renderScalarOk v = true) :
    lineToKV (attrLine (k, v)) = .ok (some (k, reparseVal v)) := by
  unfold lineToKV
  split_ifs with hb
  · exact absurd hb (by simp [attrLine_not_blank])
  · simp only [attrLine_data,
      splitKV_append k.data (renderVal v).data (keySafeChars_no_colon k.data hk),
      mk_data, hk, if_true, yamlScalarV_render v hv]


/-! ## Block parsing of serialized metadata -/

theorem parseInnerAux_cons (l : String) (ls : List String) :
    parseInnerAux (l :: ls) =
      match lineToKV l with
      | .error e => .error e
      | .ok none => parseInnerAux ls
      | .ok (some kv) =>
        match parseInnerAux ls with
        | .error e => .error e
        | .ok kvs => .ok (kv :: kvs) := by
  conv_lhs => unfold parseInnerAux

theorem parseInnerAux_map (attrs : List (String × Val))
    (hk : ∀ kv ∈ attrs, keySafeChars kv.1.data = true)
    (hv : ∀ kv ∈ attrs, renderScalarOk kv.2 = true) :
    parseInnerAux (attrs.map attrLine) =
      .ok (attrs.map (fun kv => (kv.1, reparseVal kv.2))) := by
  induction attrs with
  | nil => rfl
  | cons kv rest ih =>
    rw [List.map_cons, parseInnerAux_cons]
    have h1 : lineToKV (attrLine kv) = .ok (some (kv.1, reparseVal kv.2)) := by
      have := lineToKV_attrLine kv.1 kv.2 (hk kv (by simp)) (hv kv (by simp))
      simpa using this
    rw [h1, ih (fun x hx => hk x (by simp [hx])) (fun x hx => hv x (by simp [hx]))]
    rfl

theorem parseInnerAux_serLines (attrs : List (String × Val))
    (hk : ∀ kv ∈ attrs, keySafeChars kv.1.data = true)
    (hv : ∀ kv ∈ attrs, renderScalarOk kv.2 = true) :
    parseInnerAux (serLines attrs) =
      .ok (attrs.map (fun kv => (kv.1, reparseVal kv.2))) := by
  cases attrs with
  | nil => rfl
  | cons kv rest =>
    show parseInnerAux ((kv :: rest).map attrLine) = _
    exact parseInnerAux_map _ hk hv

theorem parseInner_serLines (attrs : List (String × Val))
    (hk : ∀ kv ∈ attrs, keySafeChars kv.1.data = true)
    (hv : ∀ kv ∈ attrs, renderScalarOk kv.2 = true)
    (hnd : (attrs.map Prod.fst).Nodup) :
    parseInner (serLines attrs) =
      .ok (attrs.map (fun kv => (kv.1, reparseVal kv.2))) := by
  unfold parseInner
  rw [parseInnerAux_serLines attrs hk hv]
  have hnd2 : ((attrs.map (fun kv => (kv.1, reparseVal kv.2))).map Prod.fst).Nodup := by
    rw [List.map_map]
    exact hnd
  show (if ((attrs.map (fun kv => (kv.1, reparseVal kv.2))).map Prod.fst).Nodup then
      Except.ok (attrs.map (fun kv => (kv.1, reparseVal kv.2)))
    else Except.error "YAMLException: duplicated mapping key")
      = Except.ok (attrs.map (fun kv => (kv.1, reparseVal kv.2)))
  rw [if_pos hnd2]

theorem parseFM_of_splitLines (content l₀ : String) (rest : List String)
    (h : splitLines content = l₀ :: rest) :
    parseFM content =
      if l₀ = "---" then parseBlock rest content else .ok ([], content) := by
  unfold parseFM
  rw [h]

theorem parseBlock_of_findClose (rest : List String) (content : String)
    (inner after : List String) (h : findClose rest = some (inner, after)) :
    parseBlock rest content =
      match parseInner inner with
      | .error e => .error e
      | .ok attrs => .ok (attrs, joinNl (after.dropWhile (fun l => isBlankLine l))) := by
  unfold parseBlock
  rw [h]

/-- The master round-trip equation on the certified fragment: serializing an
attribute map with certified keys, renderable values and distinct keys, then
parsing, succeeds and yields the `reparseVal`-image of the attributes and the
blank-prefix-normalized body. -/
theorem parseFM_serializeFM (attrs : List (String × Val)) (body : String)
    (hk : ∀ kv ∈ attrs, keySafeChars kv.1.data = true)
    (hv : ∀ kv ∈ attrs, renderScalarOk kv.2 = true)
    (hnd : (attrs.map Prod.fst).Nodup) :
    parseFM (serializeFM attrs body) =
      .ok (attrs.map (fun kv => (kv.1, reparseVal kv.2)),
        joinNl ((splitLines body).dropWhile (fun l => isBlankLine l))) := by
  have hnl : ∀ kv ∈ attrs, ∀ c ∈ (attrLine kv).data, c ≠ '\n' := by
    intro kv hkv c hc
    rw [attrLine_data] at hc
    rcases List.mem_append.mp hc with h1 | h1
    · exact keySafeChars_no_nl kv.1.data (hk kv hkv) c h1
    · rcases List.mem_cons.mp h1 with h2 | h2
      · subst h2
        decide
      · rcases List.mem_cons.mp h2 with h3 | h3
        · subst h3
          decide
        · exact renderScalarOk_no_nl kv.2 (hv kv hkv) c h3
  rw [parseFM_of_splitLines (serializeFM attrs body) "---"
    (serLines attrs ++ "---" :: "" :: splitLines body)
    (splitLines_serializeFM attrs body hnl)]
  rw [if_pos rfl]
  rw [parseBlock_of_findClose _ _ _ _
    (findClose_append (serLines attrs) ("" :: splitLines body) "---"
      (serLines_not_close attrs) (by decide))]
  rw [parseInner_serLines attrs hk hv hnd]
  rfl

/-- On stable values and a body that does not start with a blank line, the
round trip is the identity. -/
theorem parseFM_serializeFM_stable (attrs : List (String × Val)) (body : String)
    (hk : ∀ kv ∈ attrs, keySafeChars kv.1.data = true)
    (hs : ∀ kv ∈ attrs, stableScalar kv.2 = true)
    (hnd : (attrs.map Prod.fst).Nodup) (hb : bodyOk body = true) :
    parseFM (serializeFM attrs body) = .ok (attrs, body) := by
  rw [parseFM_serializeFM attrs body hk
    (fun kv hkv => renderScalarOk_of_stable kv.2 (hs kv hkv)) hnd]
  have hmap : attrs.map (fun kv => (kv.1, reparseVal kv.2)) = attrs := by
    have h2 : attrs.map (fun kv => (kv.1, reparseVal kv.2)) = attrs.map id := by
      apply List.map_congr_left
      intro kv hkv
      rw [reparseVal_stable kv.2 (hs kv hkv)]
      exact Prod.mk.eta
    rw [h2, List.map_id]
  rw [hmap, bodyReparse body hb]

/-! ## Parser inversion: what a successful parse guarantees -/

theorem yamlScalarV_natDigits (i : Nat) :
    yamlScalarV ⟨natDigits i⟩ = .ok (Val.num (i : Int)) := by
  unfold yamlScalarV
  show classifyScalar (trimChars (natDigits i)) = Except.ok (Val.num (i : Int))
  rw [trimChars_of_no_ws (natDigits i)
    (fun c hc => ws_of_digit c (natDigits_all_digit i c hc))]
  have hq : quotedBody? (natDigits i) = none := by
    apply quotedBody_none_of_head
    cases hd : natDigits i with
    | nil => exact absurd hd (natDigits_ne_nil i)
    | cons d ds =>
      simp only [List.head?_cons, ne_eq, Option.some_inj]
      intro hcon
      have hdd := natDigits_all_digit i d (by rw [hd]; simp)
      rw [hcon] at hdd
      exact absurd hdd (by decide)
  rw [classifyScalar_of_none _ hq, if_pos (isIntChars_natDigits i)]
  have hhd : ¬ (natDigits i).head? = some '-' := by
    cases hd : natDigits i with
    | nil => exact absurd hd (natDigits_ne_nil i)
    | cons d ds =>
      simp only [List.head?_cons, Option.some_inj]
      intro hcon
      have hdd := natDigits_all_digit i d (by rw [hd]; simp)
      rw [hcon] at hdd
      exact absurd hdd (by decide)
  unfold parseIntChars
  rw [if_neg hhd, parseDigits_natDigits]

theorem stableScalar_nat (i : Nat) : stableScalar (Val.num (i : Int)) = true := by
  have h : yamlScalarV (renderVal (Val.num (i : Int))) = .ok (Val.num (i : Int)) := by
    rw [renderVal_nat, yamlScalarV_natDigits]
  unfold stableScalar
  rw [h]
  simp

/-! ## Lookup under the order rewrite -/

theorem lookupKey_map_snd (g : Val → Val) (k : String) (attrs : List (String × Val)) :
    lookupKey k (attrs.map (fun kv => (kv.1, g kv.2))) = (lookupKey k attrs).map g := by
  induction attrs with
  | nil => rfl
  | cons kv rest ih =>
    by_cases h : kv.1 = k
    · simp [lookupKey, h]
    · simp [lookupKey, h, ih]

theorem lookupKey_override_order (files : List CollectionFile) (file : CollectionFile)
    (attrs : List (String × Val)) :
    lookupKey "order" (attrs.map (overrideOrder files file)) =
      (lookupKey "order" attrs).map (fun _ => Val.num (jsIndexOf file files)) := by
  induction attrs with
  | nil => rfl
  | cons kv rest ih =>
    by_cases h : kv.1 = "order"
    · simp [lookupKey, overrideOrder, h]
    · simp [lookupKey, overrideOrder, h, ih]

theorem lookupKey_override_ne (files : List CollectionFile) (file : CollectionFile)
    (attrs : List (String × Val)) (k : String) (hne : k ≠ "order") :
    lookupKey k (attrs.map (overrideOrder files file)) = lookupKey k attrs := by
  induction attrs with
  | nil => rfl
  | cons kv rest ih =>
    by_cases h : kv.1 = "order"
    · have h2 : ¬ kv.1 = k := by
        rw [h]
        exact fun he => hne he.symm
      simp [lookupKey, overrideOrder, h, h2, ih, Ne.symm hne]
    · by_cases h3 : kv.1 = k
      · simp [lookupKey, overrideOrder, h, h3, hne]
      · simp [lookupKey, overrideOrder, h, h3, ih]

theorem override_keySafe (files : List CollectionFile) (file : CollectionFile)
    (attrs : List (String × Val))
    (hk : ∀ kv ∈ attrs, keySafeChars kv.1.data = true) :
    ∀ kv ∈ attrs.map (overrideOrder files file), keySafeChars kv.1.data = true := by
  intro kv hkv
  rcases List.mem_map.mp hkv with ⟨kv0, hkv0, heq⟩
  rw [← heq, overrideOrder_fst]
  exact hk kv0 hkv0

theorem override_fst_map (files : List CollectionFile) (file : CollectionFile)
    (attrs : List (String × Val)) :
    (attrs.map (overrideOrder files file)).map Prod.fst = attrs.map Prod.fst := by
  rw [List.map_map]
  apply List.map_congr_left
  intro kv _
  exact overrideOrder_fst files file kv

theorem override_renderOk (files : List CollectionFile) (file : CollectionFile)
    (attrs : List (String × Val))
    (hv : ∀ kv ∈ attrs, kv.1 ≠ "order" → renderScalarOk kv.2 = true) :
    ∀ kv ∈ attrs.map (overrideOrder files file), renderScalarOk kv.2 = true := by
  intro kv hkv
  rcases List.mem_map.mp hkv with ⟨kv0, hkv0, heq⟩
  rw [← heq]
  unfold overrideOrder
  by_cases h : kv0.1 = "order"
  · rw [if_pos h]
    exact renderScalarOk_of_stable _ (stableScalar_nat (jsIndexOf file files))
  · rw [if_neg h]
    exact hv kv0 hkv0 h

theorem override_stable (files : List CollectionFile) (file : CollectionFile)
    (attrs : List (String × Val))
    (hv : ∀ kv ∈ attrs, kv.1 ≠ "order" → stableScalar kv.2 = true) :
    ∀ kv ∈ attrs.map (overrideOrder files file), stableScalar kv.2 = true := by
  intro kv hkv
  rcases List.mem_map.mp hkv with ⟨kv0, hkv0, heq⟩
  rw [← heq]
  unfold overrideOrder
  by_cases h : kv0.1 = "order"
  · rw [if_pos h]
    exact stableScalar_nat (jsIndexOf file files)
  · rw [if_neg h]
    exact hv kv0 hkv0 h

/-- C1: within the certified fragment (certified distinct keys, non-order
values whose rendering re-parses), the file written for the document at
0-based position i of a duplicate-free list carries `order = i` when the
document already had an `order` key, and carries no `order` key when it had
none — the reorder never adds the key. -/
theorem C1_order_values (route : String) (files : List CollectionFile)
    (hnd : files.Nodup) (i : Nat) (f : CollectionFile)
    (hf : files.get? i = some f)
    (hk : ∀ kv ∈ f.attributes, keySafeChars kv.1.data = true)
    (hv : ∀ kv ∈ f.attributes, kv.1 ≠ "order" → renderScalarOk kv.2 = true)
    (hknd : (f.attributes.map Prod.fst).Nodup) :
    (updateCollectionFileOrder route files).files.get? i
        = some { path := f.path, content := fileOrderContent files f }
    ∧ ((lookupKey "order" f.attributes).isSome = true →
        ∃ p, parseFM (fileOrderContent files f) = .ok p
          ∧ lookupKey "order" p.1 = some (Val.num (i : Int)))
    ∧ (lookupKey "order" f.attributes = none →
        ∃ p, parseFM (fileOrderContent files f) = .ok p
          ∧ lookupKey "order" p.1 = none) := by
  have hidx : jsIndexOf f files = i := jsIndexOf_of_nodup files i f hnd hf
  have hmaster := parseFM_serializeFM (f.attributes.map (overrideOrder files f)) f.body
    (override_keySafe files f f.attributes hk)
    (override_renderOk files f f.attributes hv)
    (by rw [override_fst_map]; exact hknd)
  refine ⟨?_, ?_, ?_⟩
  · unfold updateCollectionFileOrder
    rw [List.get?_map, hf]
    rfl
  · intro hsome
    refine ⟨_, hmaster, ?_⟩
    rw [lookupKey_map_snd, lookupKey_override_order, hidx]
    cases hl : lookupKey "order" f.attributes with
    | none =>
      rw [hl] at hsome
      simp at hsome
    | some v =>
      simp only [Option.map_some']
      rw [reparseVal_stable _ (stableScalar_nat i)]
  · intro hnone
    refine ⟨_, hmaster, ?_⟩
    rw [lookupKey_map_snd, lookupKey_override_order, hidx, hnone]
    rfl

/-- C1 counterexample: a document with no `order` key is rewritten without
one — the written file still parses with no `order` attribute, refuting
"the order values are exactly 0..n-1 ... including for documents whose
attribute map did not previously contain an order key". -/
theorem C1_missing_order_counterexample :
    (updateCollectionFileOrder "posts" [exNoOrder]).files
        = [{ path := exNoOrder.path, content := fileOrderContent [exNoOrder] exNoOrder }]
    ∧ parseFM (fileOrderContent [exNoOrder] exNoOrder)
        = .ok ([("title", Val.str "A")], "hello")
    ∧ lookupKey "order" [("title", Val.str "A")] = none :=
  ⟨rfl, rfl, rfl⟩

theorem C1_order_values_witness :
    (updateCollectionFileOrder "posts" [exOrd0, exOrd1]).files.get? 1
        = some { path := exOrd1.path, content := fileOrderContent [exOrd0, exOrd1] exOrd1 }
    ∧ ((lookupKey "order" exOrd1.attributes).isSome = true →
        ∃ p, parseFM (fileOrderContent [exOrd0, exOrd1] exOrd1) = .ok p
          ∧ lookupKey "order" p.1 = some (Val.num ((1 : Nat) : Int)))
    ∧ (lookupKey "order" exOrd1.attributes = none →
        ∃ p, parseFM (fileOrderContent [exOrd0, exOrd1] exOrd1) = .ok p
          ∧ lookupKey "order" p.1 = none) :=
  C1_order_values "posts" [exOrd0, exOrd1] (by decide) 1 exOrd1 rfl (by decide)
    (by decide) (by decide)

/-- C5: the reorder builds one commit with the route-naming message and one
file change per document at its original path; within the certified fragment
(certified distinct keys, stable non-order values, body not starting blank)
the rewritten file re-parses with the same body and the same value under
every non-order key. -/
theorem C5_reorder_frame (route : String) (files : List CollectionFile)
    (f : CollectionFile) (hf : f ∈ files)
    (hk : ∀ kv ∈ f.attributes, keySafeChars kv.1.data = true)
    (hv : ∀ kv ∈ f.attributes, kv.1 ≠ "order" → stableScalar kv.2 = true)
    (hknd : (f.attributes.map Prod.fst).Nodup)
    (hb : bodyOk f.body = true) :
    (updateCollectionFileOrder route files).message
        = "Updated order for files in " ++ route
    ∧ (updateCollectionFileOrder route files).files.map CommitFileChange.path
        = files.map CollectionFile.path
    ∧ (updateCollectionFileOrder route files).files.length = files.length
    ∧ ∃ p, parseFM (fileOrderContent files f) = .ok p
        ∧ p.2 = f.body
        ∧ ∀ k, k ≠ "order" → lookupKey k p.1 = lookupKey k f.attributes := by
  refine ⟨rfl, ?_, ?_, ?_⟩
  · unfold updateCollectionFileOrder
    rw [List.map_map]
    rfl
  · unfold updateCollectionFileOrder
    rw [List.length_map]
  · have hstable := parseFM_serializeFM_stable (f.attributes.map (overrideOrder files f))
      f.body (override_keySafe files f f.attributes hk)
      (override_stable files f f.attributes hv)
      (by rw [override_fst_map]; exact hknd) hb
    refine ⟨_, hstable, rfl, ?_⟩
    intro k hkne
    exact lookupKey_override_ne files f f.attributes k hkne

/-- C5 counterexample: a document whose attribute map holds the string "3"
under `foo` (exactly what parsing `foo: "3"` produces) is rewritten by the
reorder so that the re-parsed `foo` is the number 3 — an attribute other
than `order` does not keep its original value, refuting the unconditional
frame property. -/
theorem C5_reorder_frame_counterexample :
    parseFM "---\nfoo: \"3\"\n---\nb" = .ok (exStr3.attributes, exStr3.body)
    ∧ (updateCollectionFileOrder "posts" [exStr3]).files.map CommitFileChange.path
        = [exStr3.path]
    ∧ parseFM (fileOrderContent [exStr3] exStr3)
        = .ok ([("foo", Val.num 3)], "b")
    ∧ lookupKey "foo" [("foo", Val.num 3)] ≠ lookupKey "foo" exStr3.attributes :=
  ⟨rfl, rfl, rfl, by decide⟩

theorem C5_reorder_frame_witness :
    (updateCollectionFileOrder "posts" [exOrd0, exNoOrder]).message
        = "Updated order for files in " ++ "posts"
    ∧ (updateCollectionFileOrder "posts" [exOrd0, exNoOrder]).files.map CommitFileChange.path
        = [exOrd0, exNoOrder].map CollectionFile.path
    ∧ (updateCollectionFileOrder "posts" [exOrd0, exNoOrder]).files.length
        = ([exOrd0, exNoOrder] : List CollectionFile).length
    ∧ ∃ p, parseFM (fileOrderContent [exOrd0, exNoOrder] exNoOrder) = .ok p
        ∧ p.2 = exNoOrder.body
        ∧ ∀ k, k ≠ "order" → lookupKey k p.1 = lookupKey k exNoOrder.attributes :=
  C5_reorder_frame "posts" [exOrd0, exNoOrder] exNoOrder (by decide) (by decide)
    (by decide) (by decide) (by decide)


/-! ## Loader lemmas -/

end Pressunto
